import Mathlib

/-!
Shallow embedding of `src/main.c` (an audio recorder/player for the
BitDogLab board) and verification of its specification claims.

The embedded core consists of:
* `low_pass_filter` — the single-pole exponential low-pass filter;
* `grava_audio` / `capture_go` — the capture loop writing the filtered
  samples into the audio buffer, followed by normalization;
* `normalize_audio` — two-pass peak normalization to the 10-bit ceiling 1023;
* `reproduz_audio` — the playback loop, modelled as the trace of
  `play_sample` (PWM level) writes it issues;
* `moving_average_filter` — the windowed moving-average helper.

The audio buffer (a `uint16_t` array of `MAX_SAMPLES` entries) is modelled
as a `List ℕ`; all C arithmetic on `uint16_t`/`int` values stays well inside
the machine ranges for the values that can occur here (entries are at most
65535, `v * 1023 ≤ 67 046 655 < 2^31`), so `ℕ` arithmetic with truncating
division is an exact model.  The C filter computes in 32-bit `float` with
`alpha = 0.1f` and casts the (non-negative) result to `uint16_t`, which
truncates; it is modelled in exact rational arithmetic with `alpha = 1/10`
and `Int.floor`.
-/

/-- Macro `AUDIO_DURATION_SEC` from `src/main.c`. -/
def AUDIO_DURATION_SEC : ℕ := 5

/-- Macro `SAMPLE_RATE` from `src/main.c`. -/
def SAMPLE_RATE : ℕ := 16000

/-- Macro `MAX_SAMPLES` from `src/main.c`: the length of the audio buffer. -/
def MAX_SAMPLES : ℕ := AUDIO_DURATION_SEC * SAMPLE_RATE

/-- Macro `BUZZER_LEFT` from `src/main.c`: GPIO pin of the left buzzer. -/
def BUZZER_LEFT : ℕ := 10

/-- Macro `BUZZER_RIGHT` from `src/main.c`: GPIO pin of the right buzzer. -/
def BUZZER_RIGHT : ℕ := 21

/-- Function `low_pass_filter` of `src/main.c`:
`return (uint16_t)(alpha * current_sample + (1.0f - alpha) * prev_sample);`
The C cast of the non-negative float result to `uint16_t` truncates toward
zero, i.e. takes the floor; the float arithmetic is modelled exactly
in `ℚ`. -/
def low_pass_filter (current_sample prev_sample : ℕ) (alpha : ℚ) : ℕ :=
  Int.toNat ⌊alpha * current_sample + (1 - alpha) * prev_sample⌋

/-- First pass of `normalize_audio` in `src/main.c`: scan the buffer with
`if (buffer[i] > max_val) max_val = buffer[i];` starting from `max_val = 0`. -/
def max_scan (buffer : List ℕ) : ℕ :=
  buffer.foldl (fun max_val v => if v > max_val then v else max_val) 0

/-- Function `normalize_audio` of `src/main.c`: find the maximum, return the
buffer unchanged when it is `0`, otherwise rescale every entry by
`(buffer[i] * 1023) / max_val` (truncating integer division). -/
def normalize_audio (buffer : List ℕ) : List ℕ :=
  let max_val := max_scan buffer
  if max_val = 0 then buffer
  else buffer.map (fun v => v * 1023 / max_val)

/-- Loop body of `grava_audio` in `src/main.c`: starting at index `i` with
filter state `prev`, run the remaining `fuel` iterations, each reading one
raw ADC sample `adc i`, filtering it against `prev`, storing the result and
carrying it as the new filter state. -/
def capture_go (adc : ℕ → ℕ) (alpha : ℚ) : ℕ → ℕ → ℕ → List ℕ
  | _, _, 0 => []
  | prev, i, fuel + 1 =>
    let p := low_pass_filter (adc i) prev alpha
    p :: capture_go adc alpha p (i + 1) fuel

/-- The capture loop of `grava_audio` run for `n` iterations from filter
state `0` at index `0`: the contents of `audio_buffer` before normalization. -/
def capture (n : ℕ) (adc : ℕ → ℕ) (alpha : ℚ) : List ℕ :=
  capture_go adc alpha 0 0 n

/-- Function `grava_audio` of `src/main.c`, as a function of the stream of
raw ADC readings: run the capture loop for `MAX_SAMPLES` iterations with
`alpha = 0.1`, then call `normalize_audio` on the buffer.  The LED status
writes and the sample-clock delays have no effect on the buffer and are not
modelled. -/
def grava_audio (adc : ℕ → ℕ) : List ℕ :=
  normalize_audio (capture MAX_SAMPLES adc (1/10))

/-- Closed form of the filter state of `grava_audio`: `filtered adc alpha i`
is the value stored at buffer position `i`, each step filtering the raw
reading `adc i` against the previously stored value (`0` before the first
iteration). -/
def filtered (adc : ℕ → ℕ) (alpha : ℚ) : ℕ → ℕ
  | 0 => low_pass_filter (adc 0) 0 alpha
  | i + 1 => low_pass_filter (adc (i + 1)) (filtered adc alpha i) alpha

/-- Value of the variable `prev` of `grava_audio` at the start of iteration
`i`: `0` at the first iteration, afterwards the value stored at `i - 1`. -/
def prevAt (adc : ℕ → ℕ) (alpha : ℚ) : ℕ → ℕ
  | 0 => 0
  | i + 1 => filtered adc alpha i

/-- Loop of `reproduz_audio` in `src/main.c`, modelled as the trace of
`play_sample` calls it issues: at index `i` it writes `audio_buffer[i]`
first to the left and then to the right buzzer.  Each trace event is a pair
`(buzzer pin, PWM level)`. -/
def reproduz_go (buffer : List ℕ) : ℕ → ℕ → List (ℕ × ℕ)
  | _, 0 => []
  | i, fuel + 1 =>
    (BUZZER_LEFT, buffer.getD i 0) :: (BUZZER_RIGHT, buffer.getD i 0) ::
      reproduz_go buffer (i + 1) fuel

/-- Function `reproduz_audio` of `src/main.c` as the trace of `play_sample`
calls: the indexed loop over the whole buffer, then one final write of level
`0` to each buzzer.  The LED status writes and the delays are not modelled. -/
def reproduz_audio (buffer : List ℕ) : List (ℕ × ℕ) :=
  reproduz_go buffer 0 buffer.length ++ [(BUZZER_LEFT, 0), (BUZZER_RIGHT, 0)]

/-- Loop of `moving_average_filter` in `src/main.c`: iterate `i` upward from
the current position, accumulating `sum += buffer[i]; count++` for the
indices that pass the bounds check `i >= 0 && i < MAX_SAMPLES` (the bound is
the length of the global buffer, here `buffer.length`).  `fuel` counts the
remaining iterations. -/
def maf_go (buffer : List ℕ) : ℤ → ℕ → ℕ → ℕ → ℕ × ℕ
  | _, s, count, 0 => (s, count)
  | i, s, count, fuel + 1 =>
    if 0 ≤ i ∧ i < (buffer.length : ℤ) then
      maf_go buffer (i + 1) (s + buffer.getD i.toNat 0) (count + 1) fuel
    else
      maf_go buffer (i + 1) s count fuel

/-- Function `moving_average_filter` of `src/main.c`: loop `i` from
`index - window` to `index + window` (that is `2*window + 1` iterations when
`window ≥ 0`, none otherwise), then return `sum / count` (truncating
division; `count = 0` is division by zero in C, modelled by `Nat` division
which returns `0`). -/
def moving_average_filter (buffer : List ℕ) (index window : ℤ) : ℕ :=
  let sc := maf_go buffer (index - window) 0 0 (2 * window + 1).toNat
  sc.1 / sc.2

/-- Count accumulated by the loop of `moving_average_filter`: the divisor of
its final division. -/
def maf_count (buffer : List ℕ) (index window : ℤ) : ℕ :=
  (maf_go buffer (index - window) 0 0 (2 * window + 1).toNat).2

/-- Set of buffer indices inside the moving-average window, as the spec
describes it: the indices in `[index - window, index + window]` that lie in
the buffer's valid index range. -/
def windowIndexSet (len : ℕ) (index window : ℤ) : Finset ℕ :=
  (Finset.range len).filter
    (fun j => index - window ≤ (j : ℤ) ∧ (j : ℤ) ≤ index + window)

/-- Arithmetic mean, truncated to an integer, of the buffer entries inside
the moving-average window — the specification-side description of
`moving_average_filter`. -/
def windowMean (buffer : List ℕ) (index window : ℤ) : ℕ :=
  (∑ j ∈ windowIndexSet buffer.length index window, buffer.getD j 0) /
    (windowIndexSet buffer.length index window).card

/-! ### Arithmetic of the low-pass filter -/

/-- With `alpha = 1/10` (the value `grava_audio` uses) the rational filter
computation reduces to truncating natural-number arithmetic. -/
theorem low_pass_filter_tenth (c p : ℕ) :
    low_pass_filter c p (1/10) = (c + 9 * p) / 10 := by
  unfold low_pass_filter
  have h : (1/10 : ℚ) * c + (1 - 1/10) * p = ((c + 9 * p : ℕ) : ℚ) / ((10 : ℕ) : ℚ) := by
    push_cast; ring
  rw [h, Rat.floor_natCast_div_natCast]
  omega

/-- Variant of `low_pass_filter_tenth` stated with the coefficient in the
normal form `10⁻¹` produced by `simp`. -/
theorem low_pass_filter_inv_ten (c p : ℕ) :
    low_pass_filter c p (10⁻¹ : ℚ) = (c + 9 * p) / 10 := by
  rw [← one_div]; exact low_pass_filter_tenth c p

/-- The filter output never exceeds a common bound of its two inputs. -/
theorem low_pass_filter_le (c p m : ℕ) (hc : c ≤ m) (hp : p ≤ m) :
    low_pass_filter c p (1/10) ≤ m := by
  rw [low_pass_filter_tenth]; omega

/-! ### The maximum scan of `normalize_audio` -/

/-- The scan step of `normalize_audio` is the binary maximum. -/
theorem max_scan_eq_foldl (l : List ℕ) : max_scan l = l.foldl max 0 := by
  unfold max_scan
  congr 1
  funext m v
  split <;> omega

/-- A left fold of `max` is at least its initial value. -/
theorem le_foldl_max (l : List ℕ) (a : ℕ) : a ≤ l.foldl max a := by
  induction l generalizing a with
  | nil => exact Nat.le_refl a
  | cons b t ih => exact le_trans (Nat.le_max_left a b) (ih (max a b))

/-- A left fold of `max` bounds every element of the list. -/
theorem mem_le_foldl_max (l : List ℕ) (a v : ℕ) (hv : v ∈ l) :
    v ≤ l.foldl max a := by
  induction l generalizing a with
  | nil => cases hv
  | cons b t ih =>
    rcases List.mem_cons.mp hv with h | h
    · subst h
      exact le_trans (Nat.le_max_right a v) (le_foldl_max t (max a v))
    · exact ih (max a b) h

/-- A left fold of `max` is below any common upper bound of the initial
value and the elements. -/
theorem foldl_max_le (l : List ℕ) (a c : ℕ) (ha : a ≤ c)
    (h : ∀ v ∈ l, v ≤ c) : l.foldl max a ≤ c := by
  induction l generalizing a with
  | nil => exact ha
  | cons b t ih =>
    refine ih (max a b) (max_le ha (h b (List.mem_cons_self b t))) ?_
    exact fun v hv => h v (List.mem_cons_of_mem b hv)

/-- A left fold of `max` is the initial value or one of the elements. -/
theorem foldl_max_eq_or_mem (l : List ℕ) : ∀ a : ℕ,
    l.foldl max a = a ∨ l.foldl max a ∈ l := by
  induction l with
  | nil => exact fun a => Or.inl rfl
  | cons b t ih =>
    intro a
    rcases ih (max a b) with h | h
    · rcases max_choice a b with hm | hm
      · rw [List.foldl_cons, h, hm]; exact Or.inl rfl
      · rw [List.foldl_cons, h, hm]
        exact Or.inr (List.mem_cons_self b t)
    · exact Or.inr (List.mem_cons_of_mem b h)

/-- Every buffer entry is bounded by the scanned maximum. -/
theorem le_max_scan (l : List ℕ) (v : ℕ) (hv : v ∈ l) : v ≤ max_scan l := by
  rw [max_scan_eq_foldl]; exact mem_le_foldl_max l 0 v hv

/-- A nonzero scanned maximum is attained by some buffer entry. -/
theorem max_scan_mem (l : List ℕ) (h : max_scan l ≠ 0) : max_scan l ∈ l := by
  rw [max_scan_eq_foldl] at h ⊢
  rcases foldl_max_eq_or_mem l 0 with h0 | h0
  · exact absurd h0 h
  · exact h0

/-- The scanned maximum of a buffer containing `c` whose entries are all
bounded by `c` is exactly `c`. -/
theorem max_scan_eq_of (l : List ℕ) (c : ℕ) (hc : c ∈ l)
    (h : ∀ v ∈ l, v ≤ c) : max_scan l = c := by
  have h1 : max_scan l ≤ c := by
    rw [max_scan_eq_foldl]; exact foldl_max_le l 0 c (Nat.zero_le c) h
  exact le_antisymm h1 (le_max_scan l c hc)

/-! ### Normalization -/

/-- Unfolding of `normalize_audio` on a buffer with a nonzero maximum. -/
theorem normalize_audio_of_ne (l : List ℕ) (h : max_scan l ≠ 0) :
    normalize_audio l = l.map (fun v => v * 1023 / max_scan l) := by
  unfold normalize_audio
  simp [h]

/-- Normalization preserves the buffer length. -/
theorem normalize_audio_length (l : List ℕ) :
    (normalize_audio l).length = l.length := by
  by_cases h : max_scan l = 0 <;> simp [normalize_audio, h]

/-- Every entry of a normalized buffer is at most `1023`. -/
theorem normalize_audio_le (l : List ℕ) (v : ℕ)
    (hv : v ∈ normalize_audio l) : v ≤ 1023 := by
  by_cases h : max_scan l = 0
  · unfold normalize_audio at hv
    rw [if_pos h] at hv
    have := le_max_scan l v hv
    omega
  · rw [normalize_audio_of_ne l h] at hv
    rcases List.mem_map.mp hv with ⟨w, hw, rfl⟩
    calc w * 1023 / max_scan l
        ≤ max_scan l * 1023 / max_scan l :=
          Nat.div_le_div_right (Nat.mul_le_mul_right 1023 (le_max_scan l w hw))
      _ = 1023 := Nat.mul_div_cancel_left 1023 (Nat.pos_of_ne_zero h)

/-- Normalizing a buffer with a nonzero maximum makes the maximum exactly
`1023`. -/
theorem normalize_audio_max (l : List ℕ) (h : max_scan l ≠ 0) :
    max_scan (normalize_audio l) = 1023 := by
  rw [normalize_audio_of_ne l h]
  apply max_scan_eq_of
  · exact List.mem_map.mpr
      ⟨max_scan l, max_scan_mem l h,
        Nat.mul_div_cancel_left 1023 (Nat.pos_of_ne_zero h)⟩
  · intro v hv
    exact normalize_audio_le l v (by rw [normalize_audio_of_ne l h]; exact hv)

/-! ### The capture loop -/

/-- The capture loop stores exactly one sample per remaining iteration. -/
theorem capture_go_length (adc : ℕ → ℕ) (alpha : ℚ) :
    ∀ (fuel prev i : ℕ), (capture_go adc alpha prev i fuel).length = fuel := by
  intro fuel
  induction fuel with
  | zero => intro prev i; rfl
  | succ n ih => intro prev i; simp [capture_go, ih]

/-- The capture loop over `n` iterations yields a buffer of `n` entries. -/
theorem capture_length (n : ℕ) (adc : ℕ → ℕ) (alpha : ℚ) :
    (capture n adc alpha).length = n :=
  capture_go_length adc alpha n 0 0

/-- Filtering the raw reading `adc i` against the filter state at iteration
`i` produces the value stored at position `i`. -/
theorem low_pass_filter_prevAt (adc : ℕ → ℕ) (alpha : ℚ) (i : ℕ) :
    low_pass_filter (adc i) (prevAt adc alpha i) alpha = filtered adc alpha i := by
  cases i <;> rfl

/-- Entry `i + j` produced by the capture loop entered at iteration `i` with
the matching filter state is the chained filter value `filtered (i + j)`. -/
theorem capture_go_getElem (adc : ℕ → ℕ) (alpha : ℚ) :
    ∀ (fuel i j : ℕ), j < fuel →
      (capture_go adc alpha (prevAt adc alpha i) i fuel)[j]? =
        some (filtered adc alpha (i + j)) := by
  intro fuel
  induction fuel with
  | zero => intro i j h; omega
  | succ n ih =>
    intro i j h
    cases j with
    | zero =>
      simp [capture_go, low_pass_filter_prevAt]
    | succ k =>
      have h2 : k < n := by omega
      simp only [capture_go, low_pass_filter_prevAt, List.getElem?_cons_succ]
      have hp : filtered adc alpha i = prevAt adc alpha (i + 1) := rfl
      rw [hp, show i + (k + 1) = (i + 1) + k by omega]
      exact ih (i + 1) k h2

/-- Entry `j` of the captured buffer is the chained filter value
`filtered j`. -/
theorem capture_getElem (n : ℕ) (adc : ℕ → ℕ) (alpha : ℚ) (j : ℕ)
    (h : j < n) : (capture n adc alpha)[j]? = some (filtered adc alpha j) := by
  have h0 : prevAt adc alpha 0 = 0 := rfl
  have := capture_go_getElem adc alpha n 0 j h
  rw [h0] at this
  simpa using this

/-- Every entry the capture loop stores is bounded by any common bound of
the raw readings and the incoming filter state. -/
theorem capture_go_le (adc : ℕ → ℕ) (M : ℕ) (hadc : ∀ i, adc i ≤ M) :
    ∀ (fuel prev i : ℕ), prev ≤ M →
      ∀ v ∈ capture_go adc (1/10) prev i fuel, v ≤ M := by
  intro fuel
  induction fuel with
  | zero => intro prev i _ v hv; cases hv
  | succ n ih =>
    intro prev i hp v hv
    simp only [capture_go] at hv
    rcases List.mem_cons.mp hv with rfl | hv
    · exact low_pass_filter_le _ _ M (hadc i) hp
    · exact ih _ (i + 1) (low_pass_filter_le _ _ M (hadc i) hp) v hv

/-! ### The playback loop -/

/-- The playback loop from index `i` to the end of the buffer issues, for
each remaining entry in order, one write to the left and one to the right
buzzer with that entry as the level. -/
theorem reproduz_go_eq (l : List ℕ) :
    ∀ (fuel i : ℕ), i + fuel = l.length →
      reproduz_go l i fuel =
        (l.drop i).flatMap (fun v => [(BUZZER_LEFT, v), (BUZZER_RIGHT, v)]) := by
  intro fuel
  induction fuel with
  | zero =>
    intro i h
    rw [List.drop_eq_nil_of_le (by omega)]
    rfl
  | succ n ih =>
    intro i h
    have hi : i < l.length := by omega
    rw [List.drop_eq_getElem_cons hi, List.flatMap_cons, ← ih (i + 1) (by omega)]
    have hd : l.getD i 0 = l[i] := by
      rw [List.getD_eq_getElem?_getD, List.getElem?_eq_getElem hi]
      rfl
    simp only [reproduz_go, hd]
    rfl

/-! ### The moving-average loop -/

/-- Loop invariant index set of `moving_average_filter`: the buffer indices
among the `fuel` loop positions `i, i + 1, …, i + fuel - 1` that pass the
bounds check. -/
def hitIdx (len : ℕ) (i : ℤ) (fuel : ℕ) : Finset ℕ :=
  (Finset.range len).filter (fun j => i ≤ (j : ℤ) ∧ (j : ℤ) < i + fuel)

/-- With no iterations left, no index passes the bounds check. -/
theorem hitIdx_zero (len : ℕ) (i : ℤ) : hitIdx len i 0 = ∅ := by
  ext j
  simp only [hitIdx, Finset.mem_filter, Finset.mem_range, Finset.not_mem_empty,
    iff_false, not_and]
  intro _ _
  omega

/-- When the current position passes the bounds check, the index set is the
current index together with the indices of the remaining iterations. -/
theorem hitIdx_succ_in (len : ℕ) (i : ℤ) (fuel : ℕ) (h0 : 0 ≤ i)
    (h1 : i < (len : ℤ)) :
    hitIdx len i (fuel + 1) = insert i.toNat (hitIdx len (i + 1) fuel) := by
  ext j
  simp only [hitIdx, Finset.mem_filter, Finset.mem_range, Finset.mem_insert]
  omega

/-- The current index is not among the indices of the later iterations. -/
theorem hitIdx_not_mem_succ (len : ℕ) (i : ℤ) (fuel : ℕ) (h0 : 0 ≤ i) :
    i.toNat ∉ hitIdx len (i + 1) fuel := by
  simp only [hitIdx, Finset.mem_filter, Finset.mem_range, not_and]
  intro _ h
  omega

/-- When the current position fails the bounds check, the index set is that
of the remaining iterations. -/
theorem hitIdx_succ_out (len : ℕ) (i : ℤ) (fuel : ℕ)
    (h : ¬(0 ≤ i ∧ i < (len : ℤ))) :
    hitIdx len i (fuel + 1) = hitIdx len (i + 1) fuel := by
  ext j
  simp only [hitIdx, Finset.mem_filter, Finset.mem_range]
  omega

/-- Loop invariant of `moving_average_filter`: running the loop adds to the
accumulators the sum and the cardinality over the in-bounds indices of the
remaining iterations. -/
theorem maf_go_spec (buffer : List ℕ) :
    ∀ (fuel : ℕ) (i : ℤ) (s c : ℕ),
      maf_go buffer i s c fuel =
        (s + ∑ j ∈ hitIdx buffer.length i fuel, buffer.getD j 0,
          c + (hitIdx buffer.length i fuel).card) := by
  intro fuel
  induction fuel with
  | zero => intro i s c; simp [maf_go, hitIdx_zero]
  | succ n ih =>
    intro i s c
    by_cases h : 0 ≤ i ∧ i < (buffer.length : ℤ)
    · have hstep : maf_go buffer i s c (n + 1) =
          maf_go buffer (i + 1) (s + buffer.getD i.toNat 0) (c + 1) n := by
        simp only [maf_go, if_pos h]
      rw [hstep, ih, hitIdx_succ_in buffer.length i n h.1 h.2,
        Finset.sum_insert (hitIdx_not_mem_succ buffer.length i n h.1),
        Finset.card_insert_of_not_mem (hitIdx_not_mem_succ buffer.length i n h.1)]
      simp only [Prod.mk.injEq]
      constructor <;> omega
    · have hstep : maf_go buffer i s c (n + 1) = maf_go buffer (i + 1) s c n := by
        simp only [maf_go, if_neg h]
      rw [hstep, ih, hitIdx_succ_out buffer.length i n h]

/-- The loop positions of `moving_average_filter` that pass the bounds check
are exactly the window indices the spec describes. -/
theorem hitIdx_eq_windowIndexSet (len : ℕ) (index window : ℤ) :
    hitIdx len (index - window) (2 * window + 1).toNat =
      windowIndexSet len index window := by
  ext j
  simp only [hitIdx, windowIndexSet, Finset.mem_filter, Finset.mem_range]
  omega

/-- The moving-average filter computes the truncated mean over the window
index set. -/
theorem maf_eq_windowMean (buffer : List ℕ) (index window : ℤ) :
    moving_average_filter buffer index window = windowMean buffer index window := by
  simp only [moving_average_filter, windowMean,
    maf_go_spec buffer (2 * window + 1).toNat (index - window) 0 0,
    hitIdx_eq_windowIndexSet, Nat.zero_add]

/-- The count accumulated by the loop is the cardinality of the window
index set. -/
theorem maf_count_eq_card (buffer : List ℕ) (index window : ℤ) :
    maf_count buffer index window =
      (windowIndexSet buffer.length index window).card := by
  simp only [maf_count,
    maf_go_spec buffer (2 * window + 1).toNat (index - window) 0 0,
    hitIdx_eq_windowIndexSet, Nat.zero_add]

/-! ### Claim theorems -/

/-- Claim C1: for every buffer whose maximum entry `max_val` is greater than
`0`, `normalize_audio` replaces every entry `v` with
`floor(v * 1023 / max_val)`; afterwards the maximum entry equals `1023` and
every entry lies in `[0, 1023]`. -/
theorem normalize_audio_rescales (buffer : List ℕ) (h : 0 < max_scan buffer) :
    normalize_audio buffer = buffer.map (fun v => v * 1023 / max_scan buffer) ∧
    max_scan (normalize_audio buffer) = 1023 ∧
    ∀ i : Fin (normalize_audio buffer).length,
      (normalize_audio buffer).get i ≤ 1023 := by
  have hne : max_scan buffer ≠ 0 := Nat.pos_iff_ne_zero.mp h
  exact ⟨normalize_audio_of_ne buffer hne, normalize_audio_max buffer hne,
    fun i => normalize_audio_le buffer _ (List.get_mem _ _ _)⟩

/-- Witness for C1 at the concrete buffer `[10, 19, 27]` (maximum `27`). -/
theorem normalize_audio_rescales_witness :
    0 < max_scan [10, 19, 27] ∧
    normalize_audio [10, 19, 27] =
      [10, 19, 27].map (fun v => v * 1023 / max_scan [10, 19, 27]) ∧
    max_scan (normalize_audio [10, 19, 27]) = 1023 :=
  ⟨by decide, (normalize_audio_rescales [10, 19, 27] (by decide)).1,
    (normalize_audio_rescales [10, 19, 27] (by decide)).2.1⟩

/-- Claim C2: the capture operation `grava_audio` performs exactly
`N = AUDIO_DURATION_SEC * SAMPLE_RATE` iterations; at iteration `i` it reads
the raw sample `adc i`, filters it against the previous filtered value
(`0` at `i = 0`), stores the result at buffer position `i` and carries it as
the next filter state; after the loop it invokes normalization
unconditionally. -/
theorem grava_audio_capture_loop (adc : ℕ → ℕ) :
    MAX_SAMPLES = AUDIO_DURATION_SEC * SAMPLE_RATE ∧
    (capture MAX_SAMPLES adc (1/10)).length = MAX_SAMPLES ∧
    (∀ i : Fin MAX_SAMPLES,
      (capture MAX_SAMPLES adc (1/10))[i.val]? =
        some (filtered adc (1/10) i.val)) ∧
    (∀ i : Fin MAX_SAMPLES,
      filtered adc (1/10) i.val =
        low_pass_filter (adc i.val) (prevAt adc (1/10) i.val) (1/10)) ∧
    grava_audio adc = normalize_audio (capture MAX_SAMPLES adc (1/10)) :=
  ⟨rfl, capture_length MAX_SAMPLES adc (1/10),
    fun i => capture_getElem MAX_SAMPLES adc (1/10) i.val i.isLt,
    fun i => (low_pass_filter_prevAt adc (1/10) i.val).symm, rfl⟩

/-- Claim C3: for every buffer whose maximum entry is `0`, `normalize_audio`
leaves every entry unchanged (the rescale pass with its division is never
reached). -/
theorem normalize_audio_silent_noop (buffer : List ℕ)
    (h : max_scan buffer = 0) : normalize_audio buffer = buffer := by
  unfold normalize_audio
  simp [h]

/-- Witness for C3 at the all-silence buffer `[0, 0, 0]`. -/
theorem normalize_audio_silent_noop_witness :
    max_scan [0, 0, 0] = 0 ∧ normalize_audio [0, 0, 0] = [0, 0, 0] :=
  ⟨by decide, normalize_audio_silent_noop [0, 0, 0] (by decide)⟩

/-- Claim C4: for every buffer state, playback issues exactly `N` paired
writes — at step `i` the value at buffer position `i` goes identically to
both channels, in order — followed by exactly one write of `0` to each of
the two channels. -/
theorem reproduz_audio_trace (buffer : List ℕ) :
    reproduz_audio buffer =
      buffer.flatMap (fun v => [(BUZZER_LEFT, v), (BUZZER_RIGHT, v)]) ++
        [(BUZZER_LEFT, 0), (BUZZER_RIGHT, 0)] ∧
    (reproduz_audio buffer).length = 2 * buffer.length + 2 := by
  have h : reproduz_go buffer 0 buffer.length =
      buffer.flatMap (fun v => [(BUZZER_LEFT, v), (BUZZER_RIGHT, v)]) := by
    have h0 := reproduz_go_eq buffer buffer.length 0 (by omega)
    rw [List.drop_zero] at h0
    exact h0
  refine ⟨by rw [reproduz_audio, h], ?_⟩
  rw [reproduz_audio, h]
  simp only [List.length_append, List.length_flatMap, Function.comp_def,
    List.length_cons, List.length_nil, List.map_const', List.sum_replicate,
    smul_eq_mul]
  omega

/-- Claim C5: after `grava_audio` completes, the audio buffer holds exactly
`MAX_SAMPLES` entries and every entry lies in `[0, 1023]`, for every
sequence of raw ADC readings. -/
theorem grava_audio_buffer_invariant (adc : ℕ → ℕ) :
    (grava_audio adc).length = MAX_SAMPLES ∧
    ∀ i : Fin (grava_audio adc).length, (grava_audio adc).get i ≤ 1023 := by
  constructor
  · rw [grava_audio, normalize_audio_length, capture_length]
  · intro i
    exact normalize_audio_le _ _ (List.get_mem _ _ _)

/-- Claim C6, counterexample: recording 3 samples of raw reading `100` with
`alpha = 1/10` and filter seed `0` does produce the filtered sequence
`[10, 19, 27]`, but normalizing that buffer does not produce
`[370, 703, 1023]` — the code yields `[378, 719, 1023]`
(`floor(10 * 1023 / 27) = 378`, `floor(19 * 1023 / 27) = 719`). -/
theorem end_to_end_expected_counterexample :
    capture 3 (fun _ => 100) (1/10) = [10, 19, 27] ∧
    normalize_audio (capture 3 (fun _ => 100) (1/10)) ≠ [370, 703, 1023] := by
  have h : capture 3 (fun _ => 100) (1/10) = [10, 19, 27] := by
    simp [capture, capture_go, low_pass_filter_inv_ten]
  exact ⟨h, by rw [h]; decide⟩

/-- Claim C6, amended: recording 3 samples with raw readings
`[100, 100, 100]`, `alpha = 1/10` and filter seed `0` produces the filtered
sequence `[10, 19, 27]`, and normalizing that buffer with resolution `1023`
produces `[378, 719, 1023]`. -/
theorem end_to_end_scenario :
    capture 3 (fun _ => 100) (1/10) = [10, 19, 27] ∧
    normalize_audio (capture 3 (fun _ => 100) (1/10)) = [378, 719, 1023] := by
  have h : capture 3 (fun _ => 100) (1/10) = [10, 19, 27] := by
    simp [capture, capture_go, low_pass_filter_inv_ten]
  exact ⟨h, by rw [h]; decide⟩

/-- Claim C7, counterexample: with constant raw readings `4095` (a 12-bit
ADC full-scale value) the value the capture loop stores at position `2` is
`1108`, which exceeds the output range bound `1023` — the filter performs no
clamping, values are brought into `[0, 1023]` only by normalization. -/
theorem capture_exceeds_output_range :
    (capture 3 (fun _ => 4095) (1/10))[2]? = some 1108 ∧ ¬(1108 ≤ 1023) := by
  refine ⟨?_, by decide⟩
  simp [capture, capture_go, low_pass_filter_inv_ten]

/-- Claim C7, amended: every value the capture loop stores into the audio
buffer lies in `[0, M]` for any bound `M` of the raw ADC readings (in
particular `[0, ADC_MAX]`), but not necessarily in `[0, 1023]`; the bound
`1023` holds only after normalization. -/
theorem capture_bounded_by_adc (adc : ℕ → ℕ) (M n : ℕ)
    (hadc : ∀ i, adc i ≤ M) : ∀ v ∈ capture n adc (1/10), v ≤ M :=
  capture_go_le adc M hadc n 0 0 (Nat.zero_le M)

/-- Witness for the amended C7 at one captured sample of the constant zero
reading. -/
theorem capture_bounded_by_adc_witness :
    0 ∈ capture 1 (fun _ => 0) (1/10) ∧ (0 : ℕ) ≤ 0 :=
  ⟨by simp [capture, capture_go, low_pass_filter_inv_ten],
    capture_bounded_by_adc (fun _ => 0) 0 1 (fun _ => Nat.le_refl 0) 0
      (by simp [capture, capture_go, low_pass_filter_inv_ten])⟩

/-- Claim C8: for every buffer, index and window, `moving_average_filter`
returns the truncated arithmetic mean of exactly the buffer entries whose
indices lie in `[index - window, index + window]` intersected with the
buffer's valid index range (the model is pure, so the buffer is never
mutated); in particular for `index = 0` and `window = 5` it averages only
the 6 entries at indices `0..5`. -/
theorem moving_average_filter_windowMean (buffer : List ℕ)
    (index window : ℤ) :
    moving_average_filter buffer index window =
      windowMean buffer index window ∧
    (6 ≤ buffer.length → moving_average_filter buffer 0 5 =
      (∑ j ∈ Finset.range 6, buffer.getD j 0) / 6) := by
  refine ⟨maf_eq_windowMean buffer index window, fun h6 => ?_⟩
  rw [maf_eq_windowMean buffer 0 5]
  have hset : windowIndexSet buffer.length 0 5 = Finset.range 6 := by
    ext j
    simp only [windowIndexSet, Finset.mem_filter, Finset.mem_range]
    omega
  rw [windowMean, hset, Finset.card_range]

/-- Witness for C8 at the buffer `[6, 0, 0, 0, 0, 0]` with `index = 0`,
`window = 5`. -/
theorem moving_average_filter_windowMean_witness :
    6 ≤ ([6, 0, 0, 0, 0, 0] : List ℕ).length ∧
    moving_average_filter [6, 0, 0, 0, 0, 0] 0 5 =
      (∑ j ∈ Finset.range 6, ([6, 0, 0, 0, 0, 0] : List ℕ).getD j 0) / 6 :=
  ⟨by decide,
    (moving_average_filter_windowMean [6, 0, 0, 0, 0, 0] 0 5).2 (by decide)⟩

/-- Claim C9: for every buffer whose maximum entry already equals `1023`,
`normalize_audio` leaves every entry unchanged — a second normalization
after a successful one is a no-op. -/
theorem normalize_audio_idempotent_full_scale (buffer : List ℕ)
    (h : max_scan buffer = 1023) : normalize_audio buffer = buffer := by
  rw [normalize_audio_of_ne buffer (by omega), h]
  calc buffer.map (fun v => v * 1023 / 1023)
      = buffer.map id :=
        List.map_congr_left (fun v _ => Nat.mul_div_cancel v (by norm_num))
    _ = buffer := List.map_id buffer

/-- Witness for C9 at the already-normalized buffer `[0, 1023]`. -/
theorem normalize_audio_idempotent_full_scale_witness :
    max_scan [0, 1023] = 1023 ∧ normalize_audio [0, 1023] = [0, 1023] :=
  ⟨by decide, normalize_audio_idempotent_full_scale [0, 1023] (by decide)⟩

/-- Claim C10: under the precondition `0 ≤ index < buffer length` (the C
bound `MAX_SAMPLES` is the length of the global buffer) and `window ≥ 0`,
the count accumulated by `moving_average_filter` is at least `1` (the index
itself is always counted), so the final division `sum / count` never
divides by zero; without the precondition the divisor can be zero, e.g. at
`index = -1`, `window = 0`. -/
theorem moving_average_count_pos :
    (∀ (buffer : List ℕ) (index window : ℤ), 0 ≤ index →
      index < (buffer.length : ℤ) → 0 ≤ window →
        1 ≤ maf_count buffer index window) ∧
    maf_count [5] (-1) 0 = 0 := by
  refine ⟨fun buffer index window h0 h1 h2 => ?_, by decide⟩
  rw [maf_count_eq_card]
  refine Finset.card_pos.mpr ⟨index.toNat, ?_⟩
  simp only [windowIndexSet, Finset.mem_filter, Finset.mem_range]
  omega

/-- Witness for C10 at the buffer `[5]` with `index = 0`, `window = 0`. -/
theorem moving_average_count_pos_witness :
    (0 : ℤ) ≤ 0 ∧ (0 : ℤ) < (([5] : List ℕ).length : ℤ) ∧ (0 : ℤ) ≤ 0 ∧
    1 ≤ maf_count [5] 0 0 :=
  ⟨by decide, by decide, by decide,
    moving_average_count_pos.1 [5] 0 0 (by decide) (by decide) (by decide)⟩
